import Mathlib

/-!
Verification of the hash-based signature library (Lamport, Winternitz, HORST,
Merkle, Goldreich, SPHINCS) against its specification.

The Rust source is shallowly embedded:
* bytes are `Fin 256`, 32-byte words (`[u8; 32]` / `U256`) are length-32 byte
  lists;
* SHA-256 (the `sha2` crate primitive used by `hash`, `hash_n`, `hash_pair`)
  is implemented concretely as `sha256`; scheme definitions are parameterized
  over the compression function `hash` so that theorems quantify over the
  digest values, and `sha256` is the standard instantiation;
* the deterministic PRNGs (`Hc128Rng`, `StdRng`) are abstracted as seed-indexed
  block streams `rng : U256 → Nat → U256`, where `rng seed i` is the i-th
  32-byte block drawn from the generator seeded with `seed`;
* OS entropy consumed by `sign` (the Goldreich leaf index, the SPHINCS
  per-message randomness) is passed as an explicit argument;
* Rust panics (failed `assert!`, out-of-bounds slice indexing, `usize`
  underflow where noted) are modelled by `Option`: `none` is a panic,
  `some b` a returned boolean.
-/

abbrev Byte := Fin 256

def U256 : Type := { l : List Byte // l.length = 32 }

instance : DecidableEq U256 := fun a b =>
  decidable_of_iff (a.val = b.val) Subtype.ext_iff.symm

def zero32 : U256 := ⟨List.replicate 32 0, by simp⟩

instance : Inhabited U256 := ⟨zero32⟩

/-- Little-endian value of a byte string (`Integer::from_digits(_, Order::Lsf)`). -/
def leNat : List Byte → Nat
  | [] => 0
  | b :: bs => b.val + 256 * leNat bs

/-- The i-th little-endian byte of a natural number. -/
def leByte (n i : Nat) : Byte := ⟨n / 256 ^ i % 256, Nat.mod_lt _ (by norm_num)⟩

/-- `bytemuck::bytes_of(&x)` for `x : usize`: the 8 little-endian bytes. -/
def leBytes8 (n : Nat) : List Byte := (List.range 8).map (leByte n)

/-- Minimal little-endian byte string of a natural number
(`Integer::to_digits(Order::Lsf)`): empty for `0`.  Fuel-based so that the
kernel can evaluate it; `sigDigits` supplies fuel `n`, which always suffices. -/
def sigDigitsF : Nat → Nat → List Byte
  | 0, _ => []
  | _ + 1, 0 => []
  | fuel + 1, v => leByte v 0 :: sigDigitsF fuel (v / 256)

def sigDigits (n : Nat) : List Byte := sigDigitsF n n

/-- Base-`w` digits of `v`, least significant first, empty for `0`
(the loop body of `Winternitz::push_base_w` and of `Horst::transform_msg`
before padding).  Fuel-based; `digitsW` supplies fuel `v`. -/
def digitsWF (w : Nat) : Nat → Nat → List Nat
  | 0, _ => []
  | _ + 1, 0 => []
  | fuel + 1, v => v % w :: digitsWF w fuel (v / w)

def digitsW (w v : Nat) : List Nat := digitsWF w v v

/-- `util::floored_log`: `⌊log₂ n⌋` computed by a fuel recursion the kernel
can reduce.  (The Rust bit-trick `8·size_of::<usize>() − leading_zeros(n) − 1`
agrees with `⌊log₂ n⌋` for every `n ≥ 1`; for `n = 0` the Rust expression
underflows `usize` and panics, a case never reached with legal parameters.) -/
def log2F : Nat → Nat → Nat
  | 0, _ => 0
  | fuel + 1, n => if 2 ≤ n then log2F fuel (n / 2) + 1 else 0

def flooredLog (n : Nat) : Nat := log2F n n

/-- `util::div_up`: note this is rounding-to-nearest division
`(dividend + divisor/2) / divisor`, not ceiling division. -/
def div_up (dividend divisor : Nat) : Nat := (dividend + divisor / 2) / divisor

section Sha256

/-! ### SHA-256, implemented from FIPS 180-4.

Words are naturals reduced mod `2^32`.  The round constants are the first 32
bits of the fractional parts of the cube (resp. square) roots of the first 64
(resp. 8) primes, obtained from integer cube/square roots computed by binary
descent (`icbrt`, `isqrt`). -/

def icbrt (n : Nat) : Nat :=
  (List.range 40).foldl
    (fun r i => let c := r + 2 ^ (39 - i); if c ^ 3 ≤ n then c else r) 0

def isqrt (n : Nat) : Nat :=
  (List.range 40).foldl
    (fun r i => let c := r + 2 ^ (39 - i); if c ^ 2 ≤ n then c else r) 0

def primes64 : List Nat :=
  [2, 3, 5, 7, 11, 13, 17, 19, 23, 29, 31, 37, 41, 43, 47, 53,
   59, 61, 67, 71, 73, 79, 83, 89, 97, 101, 103, 107, 109, 113, 127, 131,
   137, 139, 149, 151, 157, 163, 167, 173, 179, 181, 191, 193, 197, 199, 211, 223,
   227, 229, 233, 239, 241, 251, 257, 263, 269, 271, 277, 281, 283, 293, 307, 311]

def shaK : List Nat := primes64.map (fun p => icbrt (p * 2 ^ 96) % 2 ^ 32)

def shaH0 : List Nat := (primes64.take 8).map (fun p => isqrt (p * 2 ^ 64) % 2 ^ 32)

def rotr32 (n x : Nat) : Nat := x / 2 ^ n + x % 2 ^ n * 2 ^ (32 - n)

def bigSigma0 (x : Nat) : Nat := rotr32 2 x ^^^ rotr32 13 x ^^^ rotr32 22 x

def bigSigma1 (x : Nat) : Nat := rotr32 6 x ^^^ rotr32 11 x ^^^ rotr32 25 x

def smallSigma0 (x : Nat) : Nat := rotr32 7 x ^^^ rotr32 18 x ^^^ x >>> 3

def smallSigma1 (x : Nat) : Nat := rotr32 17 x ^^^ rotr32 19 x ^^^ x >>> 10

def shaCh (x y z : Nat) : Nat := x &&& y ^^^ (4294967295 ^^^ x) &&& z

def shaMaj (x y z : Nat) : Nat := x &&& y ^^^ x &&& z ^^^ y &&& z

/-- Message schedule: extend the 16 block words to 64. -/
def shaSchedule (block : List Nat) : List Nat :=
  (List.range 48).foldl
    (fun ws i =>
      let a := ws.getD (i + 0) 0
      let b := ws.getD (i + 1) 0
      let c := ws.getD (i + 9) 0
      let d := ws.getD (i + 14) 0
      ws ++ [(smallSigma1 d + c + smallSigma0 b + a) % 2 ^ 32])
    block

/-- One round of the compression loop on the state `(a,b,c,d,e,f,g,h)`. -/
def shaRound (st : List Nat) (kw : Nat × Nat) : List Nat :=
  let a := st.getD 0 0
  let b := st.getD 1 0
  let c := st.getD 2 0
  let d := st.getD 3 0
  let e := st.getD 4 0
  let f := st.getD 5 0
  let g := st.getD 6 0
  let h := st.getD 7 0
  let t1 := (h + bigSigma1 e + shaCh e f g + kw.1 + kw.2) % 2 ^ 32
  let t2 := (bigSigma0 a + shaMaj a b c) % 2 ^ 32
  [(t1 + t2) % 2 ^ 32, a, b, c, (d + t1) % 2 ^ 32, e, f, g]

/-- Compress one 16-word block into the running hash state. -/
def shaCompress (st : List Nat) (block : List Nat) : List Nat :=
  let ws := shaSchedule block
  let final := (shaK.zip ws).foldl shaRound st
  (st.zip final).map (fun p => (p.1 + p.2) % 2 ^ 32)

/-- Split a byte list into big-endian 32-bit words (length must divide by 4). -/
def beWords : List Byte → List Nat
  | b0 :: b1 :: b2 :: b3 :: rest =>
      (((b0.val * 256 + b1.val) * 256 + b2.val) * 256 + b3.val) :: beWords rest
  | _ => []

/-- FIPS 180-4 padding: append `0x80`, zeros, and the 64-bit big-endian bit
length, to a multiple of 64 bytes. -/
def shaPad (msg : List Byte) : List Byte :=
  let padLen := (64 - (msg.length + 9) % 64) % 64
  msg ++ ⟨128, by norm_num⟩ :: List.replicate padLen 0
      ++ (List.range 8).map (fun i => leByte (msg.length * 8) (7 - i))

/-- Split a word list into chunks of 16. -/
def chunks16 : Nat → List Nat → List (List Nat)
  | 0, _ => []
  | _ + 1, [] => []
  | fuel + 1, ws => ws.take 16 :: chunks16 fuel (ws.drop 16)

/-- Serialize eight 32-bit state words to the 32 big-endian digest bytes. -/
def wordsToBytes (st : List Nat) : List Byte :=
  st.flatMap (fun wd => (List.range 4).map (fun i => leByte wd (3 - i)))

theorem wordsToBytes_length (st : List Nat) :
    (wordsToBytes st).length = 4 * st.length := by
  induction st with
  | nil => rfl
  | cons w ws ih => simp [wordsToBytes] at ih ⊢; omega

def sha256Words (msg : List Byte) : List Nat :=
  let ws := beWords (shaPad msg)
  (chunks16 ws.length ws).foldl shaCompress shaH0

theorem shaCompress_length (st block : List Nat) (h : st.length = 8) :
    (shaCompress st block).length = 8 := by
  have h8 : ∀ kws : List (Nat × Nat), ∀ l : List Nat,
      l.length = 8 → (kws.foldl shaRound l).length = 8 := by
    intro kws
    induction kws with
    | nil => exact fun _ h => h
    | cons kw kws ih => exact fun l _ => ih _ (by rfl)
  simp only [shaCompress, List.length_map, List.length_zip, h,
    h8 (shaK.zip (shaSchedule block)) st h, Nat.min_self]

theorem sha256Words_length (msg : List Byte) : (sha256Words msg).length = 8 := by
  have : ∀ cs : List (List Nat), ∀ st : List Nat, st.length = 8 →
      (cs.foldl shaCompress st).length = 8 := by
    intro cs
    induction cs with
    | nil => exact fun _ h => h
    | cons c cs ih => exact fun st h => ih _ (shaCompress_length st c h)
  exact this _ _ (by rfl)

/-- SHA-256 of a byte string, as the 32-byte big-endian digest. -/
def sha256 (msg : List Byte) : U256 :=
  ⟨wordsToBytes (sha256Words msg), by
    rw [wordsToBytes_length, sha256Words_length]⟩

end Sha256

/-! ### The signature-scheme contract (`SignatureScheme` trait)

`pubBytes` is the `AsRef<[u8]>` view of a public key that composite schemes
hash.  `sign` and `verify` return `none` exactly when the Rust code panics. -/

structure Scheme where
  Pr : Type
  Pu : Type
  Sg : Type
  genKeys : U256 → Pr × Pu
  sign : List Byte → Pr → Option Sg
  verify : List Byte → Pu → Sg → Option Bool
  pubBytes : Pu → List Byte

/-- The crate hash helpers are SHA-256 based; scheme definitions take the
compression function as a parameter `hash`, instantiated with `sha256`. -/
def hashU (hash : List Byte → U256) (x : U256) : U256 := hash x.val

/-- `hash_pair(l, r)` hashes the concatenation of the two byte strings. -/
def hashPair (hash : List Byte → U256) (l r : List Byte) : U256 := hash (l ++ r)

/-- `hash_n(x, times)`: iterated hashing, `hash_n(x, 0) = x`. -/
def hashN (hash : List Byte → U256) (x : U256) : Nat → U256
  | 0 => x
  | n + 1 => hashN hash (hashU hash x) n

/-- Monadic map over `Option`, modelling a Rust loop whose body can panic. -/
def mapO (f : α → Option β) : List α → Option (List β)
  | [] => some []
  | a :: l => do
      let b ← f a
      let r ← mapO f l
      pure (b :: r)

section Lamport

/-! ### Lamport one-time signatures (`lamport.rs`)

The private key is `8·msg_len` pairs of 32-byte blocks drawn sequentially from
an HC-128 stream (`rngHc seed i` is the i-th block); pair `i` is blocks
`(2i, 2i+1)` of the byte stream filled by `fill_bytes`. -/

/-- Selecting one half of a key pair by a message bit (`private[i][bit]`). -/
def pick (p : U256 × U256) (b : Bool) : U256 := if b then p.2 else p.1

/-- `msg.view_bits::<Lsb0>()`: bits of each byte, least significant first. -/
def msgBits (msg : List Byte) : List Bool :=
  msg.flatMap (fun b => (List.range 8).map (fun i => decide (b.val / 2 ^ i % 2 = 1)))

def lamportGenPrivate (rngHc : U256 → Nat → U256) (msgLen : Nat) (seed : U256) :
    List (U256 × U256) :=
  (List.range (8 * msgLen)).map (fun i => (rngHc seed (2 * i), rngHc seed (2 * i + 1)))

def lamportGenPublic (hash : List Byte → U256) (priv : List (U256 × U256)) :
    List (U256 × U256) :=
  priv.map (fun p => (hashU hash p.1, hashU hash p.2))

def lamportGenKeys (hash : List Byte → U256) (rngHc : U256 → Nat → U256)
    (msgLen : Nat) (seed : U256) : List (U256 × U256) × List (U256 × U256) :=
  let priv := lamportGenPrivate rngHc msgLen seed
  (priv, lamportGenPublic hash priv)

/-- `Lamport::sign`; the two leading `assert!`s panic (`none`) when violated,
and `private[i]` indexing is checked. -/
def lamportSign (msgLen : Nat) (msg : List Byte) (priv : List (U256 × U256)) :
    Option (List U256) :=
  if priv.length / 8 = msgLen then
    if msg.length ≤ msgLen then
      mapO (fun p => (priv.get? p.1).map (fun pr => pick pr p.2)) (msgBits msg).enum
    else none
  else none

/-- The `all` loop of `Lamport::verify`: short-circuits on a failed check,
panics (`none`) on out-of-bounds indexing, indexing `sig` first. -/
def lamportVerifyGo (hash : List Byte → U256) (pub : List (U256 × U256))
    (sig : List U256) : List (Nat × Bool) → Option Bool
  | [] => some true
  | (i, bit) :: rest => do
      let s ← sig.get? i
      let k ← (pub.get? i).map (fun p => pick p bit)
      if hashU hash s = k then lamportVerifyGo hash pub sig rest else some false

def lamportVerify (hash : List Byte → U256) (msgLen : Nat) (msg : List Byte)
    (pub : List (U256 × U256)) (sig : List U256) : Option Bool :=
  if pub.length / 8 = msgLen then
    if msg.length ≤ msgLen then
      if msg.length ≠ sig.length / 8 then some false
      else lamportVerifyGo hash pub sig (msgBits msg).enum
    else none
  else none

/-- `Lamport` bundled as a scheme; `pubBytes` is the `cast_slice` view of the
boxed pair array. -/
def lamportScheme (hash : List Byte → U256) (rngHc : U256 → Nat → U256)
    (msgLen : Nat) : Scheme where
  Pr := List (U256 × U256)
  Pu := List (U256 × U256)
  Sg := List U256
  genKeys := fun seed => lamportGenKeys hash rngHc msgLen seed
  sign := fun m sk => lamportSign msgLen m sk
  verify := fun m pk sg => lamportVerify hash msgLen m pk sg
  pubBytes := fun pk => pk.flatMap (fun p => p.1.val ++ p.2.val)

end Lamport

section Winternitz

/-! ### Winternitz one-time signatures (`winternitz.rs`) -/

structure WParams where
  w : Nat
  len1 : Nat
  len2 : Nat
  len : Nat

/-- `Winternitz::new`.  `w.trailing_zeros()` equals `⌊log₂ w⌋` for the
asserted power-of-two `w`. -/
def winternitzNew (w : Nat) : WParams :=
  let logW := flooredLog w
  let len1 := div_up 256 logW
  let len2 := flooredLog (len1 * (w - 1)) / logW + 1
  ⟨w, len1, len2, len1 + len2⟩

/-- The expanded per-chain secrets: `len` 32-byte blocks from a StdRng
stream seeded by the private seed. -/
def wGenPrivate (rngStd : U256 → Nat → U256) (p : WParams) (seed : U256) :
    List U256 :=
  (List.range p.len).map (rngStd seed)

/-- `Winternitz::hash_counts`: base-w digits of the digest (little-endian
integer), then the base-w digits of the checksum `Σ (w−1−digit)` (written
through `bytes_of(&checksum)`, hence reduced to `usize` width). -/
def wHashCounts (hash : List Byte → U256) (p : WParams) (msg : List Byte) :
    List Nat :=
  let c1 := digitsW p.w (leNat (hash msg).val)
  let cs := (c1.map (fun m => p.w - 1 - m)).sum
  c1 ++ digitsW p.w (cs % 2 ^ 64)

def winternitzGenKeys (hash : List Byte → U256) (rngStd : U256 → Nat → U256)
    (p : WParams) (seed : U256) : U256 × List U256 :=
  (seed, (wGenPrivate rngStd p seed).map (fun sk => hashN hash sk (p.w - 1)))

/-- `Winternitz::sign`: total; `zip` silently truncates to the shorter of the
private chain list and the digit list. -/
def winternitzSign (hash : List Byte → U256) (rngStd : U256 → Nat → U256)
    (p : WParams) (msg : List Byte) (seed : U256) : List U256 :=
  let counts := wHashCounts hash p msg
  let priv := wGenPrivate rngStd p seed
  (priv.zip counts).map (fun pc => hashN hash pc.1 pc.2)

/-- The `all` loop of `Winternitz::verify`: for each digit, index the public
key then the signature (panicking when out of bounds) and compare chains. -/
def wVerifyGo (hash : List Byte → U256) (p : WParams) (pub sig : List U256) :
    List Nat → Nat → Option Bool
  | [], _ => some true
  | c :: rest, i => do
      let pk ← pub.get? i
      let s ← sig.get? i
      if pk = hashN hash s (p.w - 1 - c) then wVerifyGo hash p pub sig rest (i + 1)
      else some false

def winternitzVerify (hash : List Byte → U256) (p : WParams) (msg : List Byte)
    (pub sig : List U256) : Option Bool :=
  wVerifyGo hash p pub sig (wHashCounts hash p msg) 0

def winternitzScheme (hash : List Byte → U256) (rngStd : U256 → Nat → U256)
    (p : WParams) : Scheme where
  Pr := U256
  Pu := List U256
  Sg := List U256
  genKeys := fun seed => winternitzGenKeys hash rngStd p seed
  sign := fun m sk => some (winternitzSign hash rngStd p m sk)
  verify := fun m pk sg => winternitzVerify hash p m pk sg
  pubBytes := fun pk => pk.flatMap Subtype.val

end Winternitz

section Horst

/-! ### HORST few-time signatures (`horst.rs`)

Tree node values (`get_node`, `get_path`, the top-node row and
`get_root_from_top_nodes`) are embedded as total functions with `getD`
indexing; every index the scheme itself produces is in range, and no claim
concerns panics inside the HORST tree walk.  `Horst::get_node` counts
`height` upward from the leaves, so it is the structural recursion depth. -/

structure HParams where
  height : Nat
  numLeaves : Nat
  x : Nat
  k : Nat

/-- `Horst::new(height, k)`: `num_leaves = 1 << height`,
`x = floored_log(k) + 1`. -/
def horstNew (height k : Nat) : HParams := ⟨height, 2 ^ height, flooredLog k + 1, k⟩

def horstNode (hash : List Byte → U256) (priv : List U256) : Nat → Nat → U256
  | 0, idx => hashU hash (priv.getD idx zero32)
  | h + 1, idx =>
      hashPair hash (horstNode hash priv h (idx * 2)).val
        (horstNode hash priv h (idx * 2 + 1)).val

/-- `Horst::get_path`: siblings from `height` for `steps` levels, starting
at leaf-row index `idx`. -/
def horstPath (hash : List Byte → U256) (priv : List U256) :
    Nat → Nat → Nat → List U256
  | _, 0, _ => []
  | hgt, s + 1, idx =>
      horstNode hash priv hgt (if idx % 2 = 0 then idx + 1 else idx - 1)
        :: horstPath hash priv (hgt + 1) s (idx / 2)

/-- The loop body of `Horst::transform_msg`: exactly `k` digits of the
message value in base `height` (mod τ, NOT mod 2^τ), zero-padded. -/
def transformGo (tau : Nat) : Nat → Nat → List Nat
  | 0, _ => []
  | j + 1, v => v % tau :: transformGo tau j (v / tau)

def horstTransform (p : HParams) (msg : List Byte) : List Nat :=
  transformGo p.height p.k (leNat msg)

def horstGenKeys (hash : List Byte → U256) (rngStd : U256 → Nat → U256)
    (p : HParams) (seed : U256) : List U256 × U256 :=
  let priv := (List.range p.numLeaves).map (rngStd seed)
  (priv, horstNode hash priv p.height 0)

/-- `Horst::sign`: `none` on the message-length assertion or on an index
`m ≥ num_leaves` (checked `private[m]`). -/
def horstSign (hash : List Byte → U256) (p : HParams) (msg : List Byte)
    (priv : List U256) : Option (List (U256 × List U256) × List U256) :=
  if msg.length * 8 ≤ p.k * p.height then do
    let entries ← mapO
      (fun m => (priv.get? m).map
        (fun sk => (sk, horstPath hash priv 0 (p.height - p.x) m)))
      (horstTransform p msg)
    pure (entries,
      (List.range (2 ^ p.x)).map (fun i => horstNode hash priv (p.height - p.x) i))
  else none

/-- Folding one authentication path inside `Horst::verify`: returns the
recomputed node and the remaining index. -/
def horstFoldPath (hash : List Byte → U256) :
    List U256 → Nat → U256 → U256 × Nat
  | [], idx, node => (node, idx)
  | sib :: rest, idx, node =>
      horstFoldPath hash rest (idx / 2)
        (if idx % 2 = 0 then hashPair hash node.val sib.val
         else hashPair hash sib.val node.val)

def horstCheckEntries (hash : List Byte → U256) (tn : List U256) :
    List (Nat × (U256 × List U256)) → Bool
  | [] => true
  | (m, e) :: rest =>
      let fd := horstFoldPath hash e.2 m (hashU hash e.1)
      if fd.1 = tn.getD fd.2 zero32 then horstCheckEntries hash tn rest else false

/-- `get_root_from_top_nodes`, descending `d` levels from the root; called
with `d = x` so that the recursion bottoms out on the top-node row. -/
def horstRootFromTop (hash : List Byte → U256) (tn : List U256) :
    Nat → Nat → U256
  | 0, idx => tn.getD idx zero32
  | d + 1, idx =>
      hashPair hash (horstRootFromTop hash tn d (idx * 2)).val
        (horstRootFromTop hash tn d (idx * 2 + 1)).val

def horstVerify (hash : List Byte → U256) (p : HParams) (msg : List Byte)
    (pub : U256) (sig : List (U256 × List U256) × List U256) : Bool :=
  horstCheckEntries hash sig.2 ((horstTransform p msg).zip sig.1)
    && decide (horstRootFromTop hash sig.2 p.x 0 = pub)

def horstScheme (hash : List Byte → U256) (rngStd : U256 → Nat → U256)
    (p : HParams) : Scheme where
  Pr := List U256
  Pu := U256
  Sg := List (U256 × List U256) × List U256
  genKeys := fun seed => horstGenKeys hash rngStd p seed
  sign := fun m sk => horstSign hash p m sk
  verify := fun m pk sg => some (horstVerify hash p m pk sg)
  pubBytes := fun pk => pk.val

end Horst

section Merkle

/-! ### Merkle many-time signatures over an OTS `O` (`merkle.rs`)

`Merkle::get_node` counts `height` from `0` at the root down to
`tree_height` at the leaves; `merkleNode` uses the equivalent structural
fuel `d = tree_height − height` (levels remaining above the leaves). -/

structure MSig (O : Scheme) where
  leafIdx : Nat
  leafPublic : O.Pu
  leafSig : O.Sg
  path : List U256

/-- `get_ots_pair`: OTS keys at a leaf from `hash_pair(σ, bytes_of(idx))`. -/
def merkleOtsPair (O : Scheme) (hash : List Byte → U256) (priv : U256)
    (idx : Nat) : O.Pr × O.Pu :=
  O.genKeys (hashPair hash priv.val (leBytes8 idx))

def merkleNode (O : Scheme) (hash : List Byte → U256) (priv : U256) :
    Nat → Nat → U256
  | 0, idx => hash (O.pubBytes (merkleOtsPair O hash priv idx).2)
  | d + 1, idx =>
      hashPair hash (merkleNode O hash priv d (idx * 2)).val
        (merkleNode O hash priv d (idx * 2 + 1)).val

def merkleGenKeys (O : Scheme) (hash : List Byte → U256)
    (rngStd : U256 → Nat → U256) (h : Nat) (seed : U256) : (U256 × Nat) × U256 :=
  let sigma := rngStd seed 0
  ((sigma, 0), merkleNode O hash sigma h 0)

/-- `Merkle::next_key`. -/
def merkleNextKey (h : Nat) (priv : U256 × Nat) : Option (U256 × Nat) :=
  let i := priv.2 + 1
  if i < 2 ^ h then some (priv.1, i) else none

def merkleSign (O : Scheme) (hash : List Byte → U256) (h : Nat)
    (msg : List Byte) (priv : U256 × Nat) : Option (MSig O) := do
  let ots := merkleOtsPair O hash priv.1 priv.2
  let leafSig ← O.sign msg ots.1
  pure ⟨priv.2, ots.2, leafSig,
    (List.range h).map (fun s =>
      let idx := priv.2 / 2 ^ s
      merkleNode O hash priv.1 s (if idx % 2 = 0 then idx + 1 else idx - 1))⟩

end Merkle

section Goldreich

/-! ### Goldreich stateless many-time signatures over an OTS `O`
(`goldreich.rs`)

`Goldreich::sign` materializes the whole keypair vector
`tree[j] = O.gen_keys(Some(block j of the HC-128 stream seeded by σ))`;
`goldreichTree` is that vector as a function of `j` (all indices the scheme
uses are below `tree_size`).  The fresh OS-entropy leaf index drawn by
`gen_range(num_leaves-1..tree_size)` is the explicit argument `leafIdx`. -/

structure GSig (O : Scheme) where
  leafIdx : Nat
  path : List (O.Pu × O.Pu × O.Sg)

def goldreichTree (O : Scheme) (rngHc : U256 → Nat → U256) (sigma : U256)
    (j : Nat) : O.Pr × O.Pu :=
  O.genKeys (rngHc sigma j)

def goldreichGenKeys (O : Scheme) (hash : List Byte → U256)
    (rngHc : U256 → Nat → U256) (sigma : U256) :
    Option (U256 × (O.Pu × O.Sg)) := do
  let root := goldreichTree O rngHc sigma 0
  let leftPublic := (goldreichTree O rngHc sigma 1).2
  let rightPublic := (goldreichTree O rngHc sigma 2).2
  let hsh := hashPair hash (O.pubBytes leftPublic) (O.pubBytes rightPublic)
  let sg ← O.sign hsh.val root.1
  pure (sigma, (root.2, sg))

/-- The `while idx != 0` loop of `Goldreich::sign`, fuel-based (each step
moves to the parent, so fuel equal to the starting index suffices). -/
def goldreichLoop (O : Scheme) (hash : List Byte → U256)
    (rngHc : U256 → Nat → U256) (sigma : U256) :
    Nat → Nat → U256 → Option (List (O.Pu × O.Pu × O.Sg))
  | _, 0, _ => some []
  | 0, _ + 1, _ => none
  | fuel + 1, idx + 1, hsh => do
      let node := goldreichTree O rngHc sigma (idx + 1)
      let p := idx / 2
      let sibL := (goldreichTree O rngHc sigma (2 * p + 1)).2
      let sibR := (goldreichTree O rngHc sigma (2 * p + 2)).2
      let sg ← O.sign hsh.val node.1
      let rest ← goldreichLoop O hash rngHc sigma fuel p
        (hashPair hash (O.pubBytes sibL) (O.pubBytes sibR))
      pure ((sibL, sibR, sg) :: rest)

def goldreichSign (O : Scheme) (hash : List Byte → U256)
    (rngHc : U256 → Nat → U256) (sigma : U256) (leafIdx : Nat)
    (msg : List Byte) : Option (GSig O) := do
  let leafSig ← O.sign msg (goldreichTree O rngHc sigma leafIdx).1
  let p := (leafIdx - 1) / 2
  let sibL := (goldreichTree O rngHc sigma (2 * p + 1)).2
  let sibR := (goldreichTree O rngHc sigma (2 * p + 2)).2
  let rest ← goldreichLoop O hash rngHc sigma p p
    (hashPair hash (O.pubBytes sibL) (O.pubBytes sibR))
  pure ⟨leafIdx, (sibL, sibR, leafSig) :: rest⟩

/-- The verification walk: an even index is a right child, so its public key
is the second sibling.  (In Rust, reaching `idx = 0` with entries left would
underflow `idx - 1`; here the subtraction truncates — that branch is never
reached on indices the scheme produces.) -/
def goldreichVerifyGo (O : Scheme) (hash : List Byte → U256)
    (pub : O.Pu × O.Sg) : List (O.Pu × O.Pu × O.Sg) → Nat → List Byte →
    Option Bool
  | [], _, hsh => O.verify hsh pub.1 pub.2
  | e :: rest, idx, hsh => do
      let node := if idx % 2 = 0 then e.2.1 else e.1
      let ok ← O.verify hsh node e.2.2
      if ok then
        goldreichVerifyGo O hash pub rest ((idx - 1) / 2)
          (hashPair hash (O.pubBytes e.1) (O.pubBytes e.2.1)).val
      else some false

def goldreichVerify (O : Scheme) (hash : List Byte → U256) (msg : List Byte)
    (pub : O.Pu × O.Sg) (sig : GSig O) : Option Bool :=
  goldreichVerifyGo O hash pub sig.path sig.leafIdx msg

end Goldreich

section Sphincs

/-! ### SPHINCS hypertree over an OTS `O` and an FTS `F` (`sphincs.rs`)

`hash512` abstracts the SHA-512 message transform.  The per-message
pseudo-randomness (`fts_idx` drawn below `(2^h)^d` and the 256-bit `R`) is
drawn from a GMP `RandState` seeded with `msg ‖ sk2`; both draws are passed
as explicit arguments. -/

structure SphParams where
  depth : Nat
  subTreeHeight : Nat
  idxLen : Nat

def sphincsNew (d h : Nat) : SphParams := ⟨d, h, div_up (d * h + 1) 8⟩

/-- `get_sub_tree_keys`: the subtree seed hashes
`sk1 ‖ le_digits(idx) ‖ zero padding to idx_len ‖ bytes_of(depth)`; computing
the padding width underflows `usize` (panics) when `idx` needs more than
`idx_len` bytes. -/
def sphincsSubTreeKeys (O : Scheme) (hash : List Byte → U256)
    (rngStd : U256 → Nat → U256) (p : SphParams) (sk1 : U256)
    (depth idx : Nat) : Option (U256 × U256) :=
  let digits := sigDigits idx
  if digits.length ≤ p.idxLen then
    let treeSeed := hash
      (sk1.val ++ digits ++ List.replicate (p.idxLen - digits.length) 0
        ++ leBytes8 depth)
    let mk := merkleGenKeys O hash rngStd p.subTreeHeight treeSeed
    some (mk.1.1, mk.2)
  else none

/-- `get_fts_keys`: `F.gen_keys(hash_pair(sk1, le_digits(fts_idx)))`. -/
def sphincsFtsKeys (F : Scheme) (hash : List Byte → U256) (sk1 : U256)
    (idx : Nat) : F.Pr × F.Pu :=
  F.genKeys (hashPair hash sk1.val (sigDigits idx))

structure SphSig (O F : Scheme) where
  ftsPublic : F.Pu
  ftsSig : F.Sg
  path : List (U256 × MSig O)
  random : U256

/-- The `for depth in 0..self.depth` loop of `Sphincs::sign`: divide the
index, derive the subtree, Merkle-sign the running node. -/
def sphincsSignLoop (O : Scheme) (hash : List Byte → U256)
    (rngStd : U256 → Nat → U256) (p : SphParams) (sk1 : U256) :
    Nat → Nat → Nat → List Byte → Option (List (U256 × MSig O))
  | 0, _, _, _ => some []
  | rem + 1, depth, idx, node => do
      let subIdx := idx % 2 ^ p.subTreeHeight
      let idx2 := idx / 2 ^ p.subTreeHeight
      let st ← sphincsSubTreeKeys O hash rngStd p sk1 depth idx2
      let sg ← merkleSign O hash p.subTreeHeight node (st.1, subIdx)
      let rest ← sphincsSignLoop O hash rngStd p sk1 rem (depth + 1) idx2 st.2.val
      pure ((st.2, sg) :: rest)

def sphincsSign (O F : Scheme) (hash : List Byte → U256)
    (hash512 : List Byte → List Byte) (rngStd : U256 → Nat → U256)
    (p : SphParams) (msg : List Byte) (sk : U256 × U256) (ftsIdx : Nat)
    (rnd : U256) : Option (SphSig O F) := do
  let fts := sphincsFtsKeys F hash sk.1 ftsIdx
  let msgT := hash512 (rnd.val ++ msg)
  let ftsSig ← F.sign msgT fts.1
  let path ← sphincsSignLoop O hash rngStd p sk.1 p.depth 0 ftsIdx
    (F.pubBytes fts.2)
  pure ⟨fts.2, ftsSig, path, rnd⟩

end Sphincs

section Lemmas

/-! ### Supporting lemmas -/

/-- Round-trip correctness of a scheme, packaged for the composite schemes:
whenever `sign` succeeds on a key pair generated from a seed, `verify`
accepts. -/
def SchemeRT (O : Scheme) : Prop :=
  ∀ (seed : U256) (m : List Byte) (sg : O.Sg),
    O.sign m (O.genKeys seed).1 = some sg →
    O.verify m (O.genKeys seed).2 sg = some true

theorem mapO_eq_map (f : α → Option β) (g : α → β) :
    ∀ l : List α, (∀ a ∈ l, f a = some (g a)) → mapO f l = some (l.map g) := by
  intro l
  induction l with
  | nil => intro _; rfl
  | cons a t ih =>
      intro h
      simp only [mapO, h a (List.mem_cons_self a t), Option.bind_eq_bind,
        Option.some_bind, ih (fun b hb => h b (List.mem_cons_of_mem a hb))]
      rfl

theorem mapO_length (f : α → Option β) :
    ∀ (l : List α) (r : List β), mapO f l = some r → r.length = l.length := by
  intro l
  induction l with
  | nil => intro r h; cases h; rfl
  | cons a t ih =>
      intro r h
      simp only [mapO, Option.bind_eq_bind] at h
      cases hfa : f a with
      | none => rw [hfa] at h; cases h
      | some b =>
          rw [hfa] at h
          cases hrest : mapO f t with
          | none => rw [hrest] at h; cases h
          | some bs =>
              rw [hrest] at h
              cases h
              simp [ih bs hrest]

theorem get?_some (l : List α) (i : Nat) (d : α) (h : i < l.length) :
    l.get? i = some (l.getD i d) := by
  induction l generalizing i with
  | nil => simp at h
  | cons a t ih =>
      cases i with
      | zero => rfl
      | succ j =>
          simp only [List.length_cons] at h
          simpa [List.getD] using ih j (by omega)

theorem msgBits_length (msg : List Byte) : (msgBits msg).length = 8 * msg.length := by
  induction msg with
  | nil => rfl
  | cons b t ih => simp [msgBits] at ih ⊢; omega

end Lemmas

section WinternitzLemmas

theorem log2F_eq (fuel n : Nat) (h : n ≤ fuel) : log2F fuel n = Nat.log 2 n := by
  induction fuel generalizing n with
  | zero =>
      have : n = 0 := by omega
      rw [this]
      simp [log2F]
  | succ fuel ih =>
      by_cases h2 : 2 ≤ n
      · have hrec : log2F (fuel + 1) n = log2F fuel (n / 2) + 1 := by
          simp [log2F, h2]
        rw [hrec, ih (n / 2) (by omega)]
        have hpos : 0 < Nat.log 2 n := Nat.log_pos (by norm_num) h2
        have := Nat.log_div_base 2 n
        omega
      · have : log2F (fuel + 1) n = 0 := by simp [log2F, h2]
        rw [this]
        exact (Nat.log_of_lt (by omega)).symm

theorem flooredLog_eq (n : Nat) : flooredLog n = Nat.log 2 n :=
  log2F_eq n n (Nat.le_refl n)

theorem get?_map_range (f : Nat → α) (n j : Nat) (h : j < n) :
    ((List.range n).map f).get? j = some (f j) := by
  rw [List.get?_map, List.get?_range h]
  rfl

end WinternitzLemmas

section WinternitzBounds

theorem div_up_of_dvd (t : Nat) (ht : 1 ≤ t) (hdvd : t ∣ 256) :
    div_up 256 t = 256 / t := by
  obtain ⟨q, hq⟩ := hdvd
  have h1 : t / 2 < t := Nat.div_lt_self (by omega) (by omega)
  rw [div_up, hq, Nat.mul_add_div (by omega), Nat.div_eq_of_lt h1,
    Nat.mul_div_cancel_left q (by omega)]
  omega

theorem winternitzSign_length (hash : List Byte → U256)
    (rngStd : U256 → Nat → U256) (p : WParams) (m : List Byte) (seed : U256) :
    (winternitzSign hash rngStd p m seed).length
      = min p.len (wHashCounts hash p m).length := by
  simp [winternitzSign, wGenPrivate]

theorem wVerifyGo_total (hash : List Byte → U256) (p : WParams)
    (pub sig : List U256) :
    ∀ (counts : List Nat) (i : Nat), i + counts.length ≤ pub.length →
      i + counts.length ≤ sig.length →
      ∃ b, wVerifyGo hash p pub sig counts i = some b := by
  intro counts
  induction counts with
  | nil => exact fun i _ _ => ⟨true, rfl⟩
  | cons c rest ih =>
      intro i h1 h2
      simp only [List.length_cons] at h1 h2
      rw [wVerifyGo, get?_some pub i zero32 (by omega),
        get?_some sig i zero32 (by omega)]
      simp only [Option.bind_eq_bind, Option.some_bind]
      by_cases hc : pub.getD i zero32 = hashN hash (sig.getD i zero32) (p.w - 1 - c)
      · rw [if_pos hc]
        exact ih (i + 1) (by omega) (by omega)
      · rw [if_neg hc]
        exact ⟨false, rfl⟩

theorem lamportVerifyGo_total (hash : List Byte → U256)
    (pub : List (U256 × U256)) (sig : List U256) :
    ∀ l : List (Nat × Bool),
      (∀ ib ∈ l, ib.1 < pub.length ∧ ib.1 < sig.length) →
      ∃ b, lamportVerifyGo hash pub sig l = some b := by
  intro l
  induction l with
  | nil => exact fun _ => ⟨true, rfl⟩
  | cons ib rest ih =>
      intro h
      obtain ⟨h1, h2⟩ := h ib (List.mem_cons_self ib rest)
      obtain ⟨i, bit⟩ := ib
      rw [lamportVerifyGo, get?_some sig i zero32 h2,
        get?_some pub i (zero32, zero32) h1]
      simp only [Option.map_some', Option.bind_eq_bind, Option.some_bind]
      by_cases hc : hashU hash (sig.getD i zero32)
          = pick (pub.getD i (zero32, zero32)) bit
      · rw [if_pos hc]
        exact ih (fun jb hjb => h jb (List.mem_cons_of_mem _ hjb))
      · rw [if_neg hc]
        exact ⟨false, rfl⟩

/-- Lamport verification is total once the two shape assertions hold. -/
theorem lamportVerify_total (hash : List Byte → U256) (msgLen : Nat)
    (m : List Byte) (pub : List (U256 × U256)) (sig : List U256)
    (hpub : pub.length / 8 = msgLen) (hm : m.length ≤ msgLen) :
    ∃ b, lamportVerify hash msgLen m pub sig = some b := by
  rw [lamportVerify, if_pos hpub, if_pos hm]
  by_cases hlen : m.length ≠ sig.length / 8
  · rw [if_pos hlen]
    exact ⟨false, rfl⟩
  · rw [if_neg hlen]
    apply lamportVerifyGo_total
    intro ib hib
    have hget := List.mem_enum_iff_getElem?.1 hib
    have hi : ib.1 < (msgBits m).length := by
      rcases List.getElem?_eq_some.1 hget with ⟨h, _⟩
      exact h
    rw [msgBits_length] at hi
    constructor
    · omega
    · omega

end WinternitzBounds

section HorstLemmas

theorem transformGo_length (tau : Nat) : ∀ k v, (transformGo tau k v).length = k := by
  intro k
  induction k with
  | zero => intro v; rfl
  | succ k ih => intro v; simp [transformGo, ih]

theorem transformGo_lt (tau : Nat) (ht : 1 ≤ tau) :
    ∀ k v d, d ∈ transformGo tau k v → d < tau := by
  intro k
  induction k with
  | zero => intro v d h; simp [transformGo] at h
  | succ k ih =>
      intro v d h
      simp only [transformGo, List.mem_cons] at h
      rcases h with h | h
      · rw [h]; exact Nat.mod_lt _ (by omega)
      · exact ih _ _ h

/-- The transform only depends on the message value modulo `τ^k`. -/
theorem transformGo_mod (tau : Nat) :
    ∀ k v, transformGo tau k v = transformGo tau k (v % tau ^ k) := by
  intro k
  induction k with
  | zero => intro v; rfl
  | succ k ih =>
      intro v
      by_cases ht : tau = 0
      · subst ht; simp [transformGo, Nat.mod_zero]
      · have h1 : v % tau ^ (k + 1) % tau = v % tau := by
          rw [Nat.pow_succ]
          conv_rhs => rw [← Nat.mod_mul_left_mod v (tau ^ k) tau]
        have h2 : v % tau ^ (k + 1) / tau = v / tau % tau ^ k := by
          rw [Nat.pow_succ, Nat.mul_comm]
          rw [Nat.mod_mul_right_div_self]
        simp only [transformGo, h1, h2]
        rw [ih (v / tau)]

theorem zip_self_map (l : List α) (f : α → β) :
    l.zip (l.map f) = l.map (fun a => (a, f a)) := by
  induction l with
  | nil => rfl
  | cons a t ih => simp [ih]

theorem getD_map_range (f : Nat → α) (n j : Nat) (d : α) (h : j < n) :
    ((List.range n).map f).getD j d = f j := by
  have h1 := get?_some ((List.range n).map f) j d (by simp [h])
  rw [get?_map_range f n j h] at h1
  exact (Option.some_inj.1 h1).symm

/-- Splitting a parent node into its two children, even-index case. -/
theorem horstNode_pair_even (hash : List Byte → U256) (priv : List U256)
    (hgt idx : Nat) (hpar : idx % 2 = 0) :
    horstNode hash priv (hgt + 1) (idx / 2)
      = hashPair hash (horstNode hash priv hgt idx).val
          (horstNode hash priv hgt (idx + 1)).val := by
  have h1 : idx / 2 * 2 = idx := by omega
  rw [horstNode, h1]

theorem horstNode_pair_odd (hash : List Byte → U256) (priv : List U256)
    (hgt idx : Nat) (hpar : idx % 2 = 1) :
    horstNode hash priv (hgt + 1) (idx / 2)
      = hashPair hash (horstNode hash priv hgt (idx - 1)).val
          (horstNode hash priv hgt idx).val := by
  have h1 : idx / 2 * 2 = idx - 1 := by omega
  have h2 : idx - 1 + 1 = idx := by omega
  rw [horstNode, h1, h2]

/-- Folding an authentication path recomputes the ancestor `steps` levels up. -/
theorem horstFoldPath_eq (hash : List Byte → U256) (priv : List U256) :
    ∀ steps hgt idx,
    horstFoldPath hash (horstPath hash priv hgt steps idx) idx
        (horstNode hash priv hgt idx)
      = (horstNode hash priv (hgt + steps) (idx / 2 ^ steps), idx / 2 ^ steps) := by
  intro steps
  induction steps with
  | zero => intro hgt idx; simp [horstPath, horstFoldPath]
  | succ steps ih =>
      intro hgt idx
      have harr : hgt + 1 + steps = hgt + (steps + 1) := by omega
      have hdiv : idx / 2 / 2 ^ steps = idx / 2 ^ (steps + 1) := by
        rw [Nat.div_div_eq_div_mul]
        congr 1
        rw [Nat.pow_succ]
        ring
      simp only [horstPath, horstFoldPath]
      by_cases hpar : idx % 2 = 0
      · rw [if_pos hpar, if_pos hpar,
          ← horstNode_pair_even hash priv hgt idx hpar, ih (hgt + 1) (idx / 2),
          harr, hdiv]
      · rw [if_neg hpar, if_neg hpar,
          ← horstNode_pair_odd hash priv hgt idx (by omega), ih (hgt + 1) (idx / 2),
          harr, hdiv]

end HorstLemmas

section HorstRoundtrip

theorem horstCheckEntries_true (hash : List Byte → U256) (tn : List U256) :
    ∀ l : List (Nat × (U256 × List U256)),
    (∀ me ∈ l, (horstFoldPath hash me.2.2 me.1 (hashU hash me.2.1)).1
      = tn.getD (horstFoldPath hash me.2.2 me.1 (hashU hash me.2.1)).2 zero32) →
    horstCheckEntries hash tn l = true := by
  intro l
  induction l with
  | nil => intro _; rfl
  | cons me rest ih =>
      intro H
      obtain ⟨m, e⟩ := me
      simp only [horstCheckEntries]
      rw [if_pos (H (m, e) (List.mem_cons_self _ _))]
      exact ih (fun x hx => H x (List.mem_cons_of_mem _ hx))

theorem horstRootFromTop_eq (hash : List Byte → U256) (priv : List U256)
    (hgt0 x : Nat) :
    ∀ d idx, (idx + 1) * 2 ^ d ≤ 2 ^ x →
    horstRootFromTop hash ((List.range (2 ^ x)).map (horstNode hash priv hgt0)) d idx
      = horstNode hash priv (hgt0 + d) idx := by
  intro d
  induction d with
  | zero =>
      intro idx h
      simp only [horstRootFromTop]
      exact getD_map_range _ _ _ _ (by simpa using h)
  | succ d ih =>
      intro idx h
      have hL : (idx * 2 + 1) * 2 ^ d ≤ 2 ^ x := by
        have : (idx * 2 + 1) * 2 ^ d ≤ (idx + 1) * 2 ^ (d + 1) := by
          rw [Nat.pow_succ]
          nlinarith [Nat.pos_pow_of_pos d (show 0 < 2 by norm_num)]
        omega
      have hR : (idx * 2 + 1 + 1) * 2 ^ d ≤ 2 ^ x := by
        have : (idx * 2 + 1 + 1) * 2 ^ d = (idx + 1) * 2 ^ (d + 1) := by
          rw [Nat.pow_succ]
          ring
        omega
      have harr : hgt0 + (d + 1) = hgt0 + d + 1 := by omega
      simp only [horstRootFromTop]
      rw [ih _ hL, ih _ hR, harr, horstNode]

/-- A HORST signature that `sign` returns verifies against the generated
public key, provided the top cut is not deeper than the tree
(`x = ⌊log₂ k⌋ + 1 ≤ τ`). -/
theorem horst_verify_of_sign (hash : List Byte → U256) (tau k : Nat)
    (priv : List U256) (m : List Byte)
    (hx : flooredLog k + 1 ≤ tau)
    (hpriv : priv.length = 2 ^ tau)
    (sig : List (U256 × List U256) × List U256)
    (hs : horstSign hash (horstNew tau k) m priv = some sig) :
    horstVerify hash (horstNew tau k) m
      (horstNode hash priv tau 0) sig = true := by
  set p := horstNew tau k with hp
  have hph : p.height = tau := rfl
  have hpx : p.x = flooredLog k + 1 := rfl
  -- invert the sign
  rw [horstSign] at hs
  by_cases hm : m.length * 8 ≤ p.k * p.height
  · rw [if_pos hm] at hs
    have hidx : ∀ mj ∈ horstTransform p m, mj < priv.length := by
      intro mj hmj
      have htau : 1 ≤ tau := by omega
      have h1 : mj < tau := transformGo_lt tau htau p.k _ mj hmj
      have h2 : tau < 2 ^ tau := Nat.lt_two_pow tau
      omega
    rw [mapO_eq_map _
      (fun mj => (priv.getD mj zero32, horstPath hash priv 0 (p.height - p.x) mj))
      _ (fun mj hmj => by rw [get?_some priv mj zero32 (hidx mj hmj)]; rfl)] at hs
    simp only [Option.bind_eq_bind, Option.some_bind] at hs
    have hsig := (Option.some_inj.1 hs).symm
    rw [hsig]
    rw [horstVerify]
    have hcheck : horstCheckEntries hash
        ((List.range (2 ^ p.x)).map (fun i => horstNode hash priv (p.height - p.x) i))
        ((horstTransform p m).zip ((horstTransform p m).map
          (fun mj => (priv.getD mj zero32, horstPath hash priv 0 (p.height - p.x) mj))))
        = true := by
      rw [zip_self_map]
      apply horstCheckEntries_true
      intro me hme
      simp only [List.mem_map] at hme
      obtain ⟨mj, hmj, hmeeq⟩ := hme
      rw [← hmeeq]
      simp only
      have hnode0 : hashU hash (priv.getD mj zero32) = horstNode hash priv 0 mj := rfl
      rw [hnode0, horstFoldPath_eq hash priv (p.height - p.x) 0 mj]
      have hlt : mj / 2 ^ (p.height - p.x) < 2 ^ p.x := by
        have h1 : mj < priv.length := hidx mj hmj
        rw [hpriv] at h1
        rw [Nat.div_lt_iff_lt_mul (Nat.pos_pow_of_pos _ (by norm_num))]
        have : 2 ^ p.x * 2 ^ (p.height - p.x) = 2 ^ tau := by
          rw [← Nat.pow_add]
          congr 1
          rw [hph, hpx]
          omega
        omega
      rw [getD_map_range _ _ _ _ hlt]
      simp only [Nat.zero_add]
    rw [hcheck]
    have hroot : horstRootFromTop hash
        ((List.range (2 ^ p.x)).map (fun i => horstNode hash priv (p.height - p.x) i))
        p.x 0 = horstNode hash priv tau 0 := by
      have := horstRootFromTop_eq hash priv (p.height - p.x) p.x p.x 0 (by omega)
      rw [this]
      congr 1
      rw [hph, hpx]
      omega
    rw [hroot]
    simp
  · rw [if_neg hm] at hs
    cases hs

/-- HORST as a scheme satisfies the packaged round-trip property whenever
`⌊log₂ k⌋ + 1 ≤ τ`. -/
theorem horst_schemeRT (hash : List Byte → U256) (rngStd : U256 → Nat → U256)
    (tau k : Nat) (hx : flooredLog k + 1 ≤ tau) :
    SchemeRT (horstScheme hash rngStd (horstNew tau k)) := by
  intro seed m sg hs
  have hpriv : ((horstScheme hash rngStd (horstNew tau k)).genKeys seed).1.length
      = 2 ^ tau := by
    simp [horstScheme, horstGenKeys, horstNew]
  have := horst_verify_of_sign hash tau k
    ((horstScheme hash rngStd (horstNew tau k)).genKeys seed).1 m hx hpriv sg hs
  simp only [horstScheme] at this ⊢
  have hpk : (horstGenKeys hash rngStd (horstNew tau k) seed).2
      = horstNode hash (horstGenKeys hash rngStd (horstNew tau k) seed).1 tau 0 := rfl
  rw [hpk, this]

end HorstRoundtrip

section MerkleLemmas

end MerkleLemmas

section GoldreichLemmas

/-- Walking the signing loop entries in `verify` reduces to the final root
check on `hash_pair(pub(1), pub(2))` (or on the entry hash itself when the
walk starts at the root). -/
theorem gLoop_verify (O : Scheme) (hash : List Byte → U256)
    (rngHc : U256 → Nat → U256) (sigma : U256) (pub : O.Pu × O.Sg)
    (hO : SchemeRT O) :
    ∀ fuel idx hsh entries,
    goldreichLoop O hash rngHc sigma fuel idx hsh = some entries →
    goldreichVerifyGo O hash pub entries idx hsh.val
      = O.verify (if idx = 0 then hsh.val else (hashPair hash
          (O.pubBytes (goldreichTree O rngHc sigma 1).2)
          (O.pubBytes (goldreichTree O rngHc sigma 2).2)).val) pub.1 pub.2 := by
  intro fuel
  induction fuel with
  | zero =>
      intro idx hsh entries hl
      cases idx with
      | zero =>
          cases hl
          rfl
      | succ j => cases hl
  | succ fuel ih =>
      intro idx hsh entries hl
      cases idx with
      | zero =>
          cases hl
          rfl
      | succ j =>
          simp only [goldreichLoop, Option.bind_eq_bind] at hl
          cases hsg : O.sign hsh.val (goldreichTree O rngHc sigma (j + 1)).1 with
          | none => rw [hsg] at hl; cases hl
          | some sg =>
              rw [hsg] at hl
              simp only [Option.some_bind] at hl
              cases hrest : goldreichLoop O hash rngHc sigma fuel (j / 2)
                  (hashPair hash
                    (O.pubBytes (goldreichTree O rngHc sigma (2 * (j / 2) + 1)).2)
                    (O.pubBytes (goldreichTree O rngHc sigma (2 * (j / 2) + 2)).2)) with
              | none => rw [hrest] at hl; cases hl
              | some rest =>
                  rw [hrest] at hl
                  simp only [Option.some_bind] at hl
                  have hent := (Option.some_inj.1 hl).symm
                  rw [hent]
                  simp only [goldreichVerifyGo]
                  have hnode : (if (j + 1) % 2 = 0
                      then (goldreichTree O rngHc sigma (2 * (j / 2) + 2)).2
                      else (goldreichTree O rngHc sigma (2 * (j / 2) + 1)).2)
                      = (goldreichTree O rngHc sigma (j + 1)).2 := by
                    by_cases hpar : (j + 1) % 2 = 0
                    · have hj : 2 * (j / 2) + 2 = j + 1 := by omega
                      rw [if_pos hpar, hj]
                    · have hj : 2 * (j / 2) + 1 = j + 1 := by omega
                      rw [if_neg hpar, hj]
                  rw [hnode]
                  have hver : O.verify hsh.val (goldreichTree O rngHc sigma (j + 1)).2 sg
                      = some true := hO (rngHc sigma (j + 1)) hsh.val sg hsg
                  rw [hver]
                  simp only [Option.bind_eq_bind, Option.some_bind, if_pos rfl]
                  have hidx2 : (j + 1 - 1) / 2 = j / 2 := by omega
                  rw [hidx2, ih (j / 2) _ rest hrest]
                  by_cases hp0 : j / 2 = 0
                  · rw [if_pos hp0, if_neg (by omega : ¬ (j + 1 = 0))]
                    rw [hp0]
                    norm_num
                  · rw [if_neg hp0, if_neg (by omega : ¬ (j + 1 = 0))]
                    norm_num

/-- Goldreich round trip: a signature at any leaf index `≥ 1` verifies
against the generated public key. -/
theorem goldreich_roundtrip (O : Scheme) (hash : List Byte → U256)
    (rngHc : U256 → Nat → U256) (sigma : U256) (L : Nat) (msg : List Byte)
    (hO : SchemeRT O) (hL : 1 ≤ L) (gpub : U256 × (O.Pu × O.Sg)) (gsig : GSig O)
    (hg : goldreichGenKeys O hash rngHc sigma = some gpub)
    (hs : goldreichSign O hash rngHc sigma L msg = some gsig) :
    goldreichVerify O hash msg gpub.2 gsig = some true := by
  -- invert key generation
  simp only [goldreichGenKeys, Option.bind_eq_bind] at hg
  cases hroot : O.sign (hashPair hash
      (O.pubBytes (goldreichTree O rngHc sigma 1).2)
      (O.pubBytes (goldreichTree O rngHc sigma 2).2)).val
      (goldreichTree O rngHc sigma 0).1 with
  | none => rw [hroot] at hg; cases hg
  | some rootSg =>
      rw [hroot] at hg
      simp only [Option.some_bind] at hg
      have hgpub := (Option.some_inj.1 hg).symm
      -- invert signing
      simp only [goldreichSign, Option.bind_eq_bind] at hs
      cases hls : O.sign msg (goldreichTree O rngHc sigma L).1 with
      | none => rw [hls] at hs; cases hs
      | some leafSig =>
          rw [hls] at hs
          simp only [Option.some_bind] at hs
          cases hrest : goldreichLoop O hash rngHc sigma ((L - 1) / 2) ((L - 1) / 2)
              (hashPair hash
                (O.pubBytes (goldreichTree O rngHc sigma (2 * ((L - 1) / 2) + 1)).2)
                (O.pubBytes (goldreichTree O rngHc sigma (2 * ((L - 1) / 2) + 2)).2)) with
          | none => rw [hrest] at hs; cases hs
          | some rest =>
              rw [hrest] at hs
              simp only [Option.some_bind] at hs
              have hgsig := (Option.some_inj.1 hs).symm
              rw [hgsig, hgpub]
              simp only [goldreichVerify, goldreichVerifyGo]
              have hnode : (if L % 2 = 0
                  then (goldreichTree O rngHc sigma (2 * ((L - 1) / 2) + 2)).2
                  else (goldreichTree O rngHc sigma (2 * ((L - 1) / 2) + 1)).2)
                  = (goldreichTree O rngHc sigma L).2 := by
                by_cases hpar : L % 2 = 0
                · have hj : 2 * ((L - 1) / 2) + 2 = L := by omega
                  rw [if_pos hpar, hj]
                · have hj : 2 * ((L - 1) / 2) + 1 = L := by omega
                  rw [if_neg hpar, hj]
              have hver : O.verify msg (goldreichTree O rngHc sigma L).2 leafSig
                  = some true := hO (rngHc sigma L) msg leafSig hls
              rw [hnode, hver]
              simp only [Option.bind_eq_bind, Option.some_bind, if_pos rfl]
              rw [gLoop_verify O hash rngHc sigma _ hO _ _ _ rest hrest]
              by_cases hp0 : (L - 1) / 2 = 0
              · rw [if_pos hp0]
                rw [hp0]
                exact hO (rngHc sigma 0) _ rootSg hroot
              · rw [if_neg hp0]
                exact hO (rngHc sigma 0) _ rootSg hroot

/-- The signing loop produces exactly `d` entries when started at a node of
depth `d` (heap indices in `[2^d − 1, 2^(d+1) − 1)`). -/
theorem gLoop_length (O : Scheme) (hash : List Byte → U256)
    (rngHc : U256 → Nat → U256) (sigma : U256) :
    ∀ d fuel idx hsh entries,
    2 ^ d - 1 ≤ idx → idx < 2 ^ (d + 1) - 1 →
    goldreichLoop O hash rngHc sigma fuel idx hsh = some entries →
    entries.length = d := by
  intro d
  induction d with
  | zero =>
      intro fuel idx hsh entries hlo hhi hl
      have : idx = 0 := by simpa using hhi
      subst this
      cases fuel with
      | zero => cases hl; rfl
      | succ fuel => cases hl; rfl
  | succ d ih =>
      intro fuel idx hsh entries hlo hhi hl
      have h2d : 2 ^ (d + 1) = 2 * 2 ^ d := by rw [Nat.pow_succ]; ring
      have h2d2 : 2 ^ (d + 2) = 4 * 2 ^ d := by rw [Nat.pow_succ, Nat.pow_succ]; ring
      have hpos : 1 ≤ 2 ^ d := Nat.one_le_two_pow
      cases idx with
      | zero => omega
      | succ j =>
          cases fuel with
          | zero => cases hl
          | succ fuel =>
              simp only [goldreichLoop, Option.bind_eq_bind] at hl
              cases hsg : O.sign hsh.val (goldreichTree O rngHc sigma (j + 1)).1 with
              | none => rw [hsg] at hl; cases hl
              | some sg =>
                  rw [hsg] at hl
                  simp only [Option.some_bind] at hl
                  cases hrest : goldreichLoop O hash rngHc sigma fuel (j / 2)
                      (hashPair hash
                        (O.pubBytes (goldreichTree O rngHc sigma (2 * (j / 2) + 1)).2)
                        (O.pubBytes (goldreichTree O rngHc sigma (2 * (j / 2) + 2)).2)) with
                  | none => rw [hrest] at hl; cases hl
                  | some rest =>
                      rw [hrest] at hl
                      simp only [Option.some_bind] at hl
                      have hent := (Option.some_inj.1 hl).symm
                      have hrl : rest.length = d :=
                        ih fuel (j / 2) _ rest (by omega) (by omega) hrest
                      rw [hent]
                      simp [hrl]

end GoldreichLemmas

section SphincsLemmas

end SphincsLemmas

section Instances

/-! ### Concrete instantiations used by witnesses and counterexamples -/

/-- A cheap concrete hash (truncate-pad) used to instantiate the abstract
compression function where the property at stake does not depend on the
digest values. -/
def cHash : List Byte → U256 := fun l => ⟨(l ++ List.replicate 32 0).take 32, by simp⟩

/-- A concrete PRNG block stream for witnesses. -/
def cRng : U256 → Nat → U256 := fun s i => cHash (leBytes8 i ++ s.val)

/-- A concrete stand-in for the SHA-512 message transform in witnesses. -/
def cHash512 : List Byte → List Byte := fun l => (l ++ List.replicate 64 0).take 64

/-- A trivial signature scheme, a legal instantiation of the scheme contract
used to witness theorems that are parameterized over an arbitrary inner
scheme. -/
def trivScheme : Scheme where
  Pr := Unit
  Pu := Unit
  Sg := Unit
  genKeys := fun _ => ((), ())
  sign := fun _ _ => some ()
  verify := fun _ _ _ => some true
  pubBytes := fun _ => []

theorem trivScheme_RT : SchemeRT trivScheme := fun _ _ _ _ => rfl

/-- The byte string "msg0", whose SHA-256 digest has a zero top nibble. -/
def msgZero : List Byte := [109, 115, 103, 48]

end Instances

section Claims

/-- C4 counterexample: `Winternitz::new(8)` sets `len1 = 85`, while
`⌈256/log₂ 8⌉ = 86`: `div_up` rounds 256/3 to nearest, not up. -/
def specLen1 (w : Nat) : Nat := (256 + flooredLog w - 1) / flooredLog w

theorem claim_C4_counterexample :
    (winternitzNew 8).len1 = 85 ∧ specLen1 8 = 86 ∧
      (winternitzNew 8).len1 ≠ specLen1 8 := by
  refine ⟨by decide, by decide, by decide⟩

/-- C4 (amended): for every power of two `w = 2^t ≥ 2`, `Winternitz::new`
sets `len1` to the rounded-to-nearest division `(256 + t/2)/t` — which
agrees with the claimed `⌈256/log₂ w⌉` for `w ∈ {2,4,16,64,128,256}` but is
one less for `w = 8` and `w = 32` — and sets
`len2 = ⌊log₂(len1·(w−1))⌋/log₂ w + 1` and `len = len1 + len2` exactly as
claimed. -/
theorem claim_C4_parameters :
    (∀ t : Nat, 1 ≤ t →
      (winternitzNew (2 ^ t)).len1 = (256 + t / 2) / t ∧
      (winternitzNew (2 ^ t)).len2
        = Nat.log 2 ((winternitzNew (2 ^ t)).len1 * (2 ^ t - 1)) / t + 1 ∧
      (winternitzNew (2 ^ t)).len
        = (winternitzNew (2 ^ t)).len1 + (winternitzNew (2 ^ t)).len2) ∧
    ((winternitzNew 2).len1 = specLen1 2 ∧ (winternitzNew 4).len1 = specLen1 4 ∧
      (winternitzNew 16).len1 = specLen1 16 ∧ (winternitzNew 64).len1 = specLen1 64 ∧
      (winternitzNew 128).len1 = specLen1 128 ∧
      (winternitzNew 256).len1 = specLen1 256) ∧
    ((winternitzNew 8).len1 + 1 = specLen1 8 ∧
      (winternitzNew 32).len1 + 1 = specLen1 32) := by
  refine ⟨?_, ⟨by decide, by decide, by decide, by decide, by decide, by decide⟩,
    by decide, by decide⟩
  intro t ht
  have hlp : Nat.log 2 (2 ^ t) = t := Nat.log_pow (by norm_num) t
  refine ⟨?_, ?_, rfl⟩
  · simp only [winternitzNew, flooredLog_eq, hlp, div_up]
  · simp only [winternitzNew, flooredLog_eq, hlp]

theorem claim_C4_parameters_witness :
    (winternitzNew 8).len1 = (256 + 3 / 2) / 3 ∧
      (winternitzNew 8).len2
        = Nat.log 2 ((winternitzNew 8).len1 * (2 ^ 3 - 1)) / 3 + 1 := by
  have h := claim_C4_parameters.1 3 (by norm_num)
  exact ⟨h.1, h.2.1⟩

set_option maxRecDepth 1000000 in
/-- C5 counterexample: with `w = 16` (so `len = 67`), signing the message
"msg0" — whose SHA-256 digest is below `16^63` — produces a signature of
only 66 values, not `len`. -/
theorem claim_C5_counterexample :
    (winternitzSign sha256 cRng (winternitzNew 16) msgZero zero32).length = 66
      ∧ (winternitzNew 16).len = 67
      ∧ (winternitzSign sha256 cRng (winternitzNew 16) msgZero zero32).length
          ≠ (winternitzNew 16).len := by
  have h66 : (winternitzSign sha256 cRng (winternitzNew 16) msgZero zero32).length
      = 66 := by decide
  exact ⟨h66, by decide, by rw [h66]; decide⟩

/-- C5 (amended): a Winternitz signature has exactly
`min len |hash_counts(m)|` values: the digit list is unpadded, and `zip`
truncates to the shorter side.  Whenever the digit list fits (for example
always when `log₂ w` divides 256), this is `|hash_counts(m)|`, which can be
strictly less than `len`. -/
theorem claim_C5_signature_shape :
    ∀ (hash : List Byte → U256) (rngStd : U256 → Nat → U256) (p : WParams)
      (m : List Byte) (seed : U256),
    (winternitzSign hash rngStd p m seed).length
      = min p.len (wHashCounts hash p m).length := by
  intro hash rngStd p m seed
  simp [winternitzSign, wGenPrivate]

/-- C8: `Merkle::next_key` succeeds exactly when the incremented counter is
still below `2^h`, and then returns the same seed with the counter
incremented. -/
theorem claim_C8_next_key :
    ∀ (h : Nat) (p : U256 × Nat),
      ((merkleNextKey h p).isSome = true ↔ p.2 + 1 < 2 ^ h) ∧
      (∀ p2, merkleNextKey h p = some p2 → p2.1 = p.1 ∧ p2.2 = p.2 + 1) := by
  intro h p
  constructor
  · constructor
    · intro hs
      by_contra hlt
      simp [merkleNextKey, hlt] at hs
    · intro hlt
      simp [merkleNextKey, hlt]
  · intro p2 h2
    rw [merkleNextKey] at h2
    by_cases hlt : p.2 + 1 < 2 ^ h
    · rw [if_pos hlt] at h2
      have := (Option.some_inj.1 h2).symm
      rw [this]
      exact ⟨rfl, rfl⟩
    · rw [if_neg hlt] at h2
      cases h2

theorem claim_C8_next_key_witness :
    ((merkleNextKey 3 (zero32, 5)).isSome = true) ∧
      ((zero32, 6) : U256 × Nat).1 = ((zero32, 5) : U256 × Nat).1 ∧
      ((zero32, 6) : U256 × Nat).2 = ((zero32, 5) : U256 × Nat).2 + 1 := by
  refine ⟨(claim_C8_next_key 3 (zero32, 5)).1.2 (by decide), ?_⟩
  exact (claim_C8_next_key 3 (zero32, 5)).2 (zero32, 6) (by decide)

end Claims

section MoreLemmas

theorem mapO_some_forall (f : α → Option β) :
    ∀ l r, mapO f l = some r → ∀ a ∈ l, ∃ b, f a = some b := by
  intro l
  induction l with
  | nil => intro r _ a ha; simp at ha
  | cons x t ih =>
      intro r h a ha
      simp only [mapO, Option.bind_eq_bind] at h
      cases hfx : f x with
      | none => rw [hfx] at h; cases h
      | some b =>
          rw [hfx] at h
          simp only [Option.some_bind] at h
          cases hrest : mapO f t with
          | none => rw [hrest] at h; cases h
          | some bs =>
              rcases List.mem_cons.1 ha with ha | ha
              · exact ⟨b, ha ▸ hfx⟩
              · exact ih bs hrest a ha

theorem mapO_mem (f : α → Option β) :
    ∀ l r, mapO f l = some r → ∀ b ∈ r, ∃ a ∈ l, f a = some b := by
  intro l
  induction l with
  | nil => intro r h b hb; cases h; simp at hb
  | cons x t ih =>
      intro r h b hb
      simp only [mapO, Option.bind_eq_bind] at h
      cases hfx : f x with
      | none => rw [hfx] at h; cases h
      | some b0 =>
          rw [hfx] at h
          simp only [Option.some_bind] at h
          cases hrest : mapO f t with
          | none => rw [hrest] at h; cases h
          | some bs =>
              rw [hrest] at h
              simp only [Option.some_bind] at h
              rw [(Option.some_inj.1 h).symm] at hb
              rcases List.mem_cons.1 hb with hb | hb
              · exact ⟨x, List.mem_cons_self x t, hb ▸ hfx⟩
              · obtain ⟨a, ha, hfa⟩ := ih bs hrest b hb
                exact ⟨a, List.mem_cons_of_mem x ha, hfa⟩

theorem sphincsLoop_length (O : Scheme) (hash : List Byte → U256)
    (rngStd : U256 → Nat → U256) (p : SphParams) (sk1 : U256) :
    ∀ rem depth idx node entries,
    sphincsSignLoop O hash rngStd p sk1 rem depth idx node = some entries →
    entries.length = rem := by
  intro rem
  induction rem with
  | zero => intro depth idx node entries h; cases h; rfl
  | succ rem ih =>
      intro depth idx node entries h
      simp only [sphincsSignLoop, Option.bind_eq_bind] at h
      cases hst : sphincsSubTreeKeys O hash rngStd p sk1 depth
          (idx / 2 ^ p.subTreeHeight) with
      | none => rw [hst] at h; cases h
      | some st =>
          rw [hst] at h
          simp only [Option.some_bind] at h
          cases hsg : merkleSign O hash p.subTreeHeight node
              (st.1, idx % 2 ^ p.subTreeHeight) with
          | none => rw [hsg] at h; cases h
          | some sg =>
              rw [hsg] at h
              simp only [Option.some_bind] at h
              cases hrest : sphincsSignLoop O hash rngStd p sk1 rem (depth + 1)
                  (idx / 2 ^ p.subTreeHeight) st.2.val with
              | none => rw [hrest] at h; cases h
              | some rest =>
                  rw [hrest] at h
                  simp only [Option.some_bind] at h
                  rw [(Option.some_inj.1 h).symm]
                  simp [ih (depth + 1) (idx / 2 ^ p.subTreeHeight) st.2.val rest hrest]

theorem horstVerify_congr (hash : List Byte → U256) (p : HParams)
    (m1 m2 : List Byte) (pub : U256) (sig : List (U256 × List U256) × List U256)
    (h : horstTransform p m1 = horstTransform p m2) :
    horstVerify hash p m1 pub sig = horstVerify hash p m2 pub sig := by
  simp only [horstVerify, h]

/-- The HORST transform is exactly determined by the message value modulo
`τ^k`. -/
theorem transformGo_eq_iff (tau : Nat) (ht : 1 ≤ tau) :
    ∀ k v1 v2, transformGo tau k v1 = transformGo tau k v2
      ↔ v1 % tau ^ k = v2 % tau ^ k := by
  intro k
  induction k with
  | zero => intro v1 v2; simp [transformGo, Nat.mod_one]
  | succ k ih =>
      intro v1 v2
      constructor
      · intro h
        simp only [transformGo, List.cons.injEq] at h
        obtain ⟨h1, h2⟩ := h
        have h3 := (ih (v1 / tau) (v2 / tau)).1 h2
        have e1 := Nat.div_add_mod v1 tau
        have e2 := Nat.div_add_mod v2 tau
        have d1 : v1 % tau ^ (k + 1) % tau = v1 % tau := by
          rw [Nat.pow_succ]
          conv_rhs => rw [← Nat.mod_mul_left_mod v1 (tau ^ k) tau]
        have d2 : v1 % tau ^ (k + 1) / tau = v1 / tau % tau ^ k := by
          rw [Nat.pow_succ, Nat.mul_comm, Nat.mod_mul_right_div_self]
        have d3 : v2 % tau ^ (k + 1) % tau = v2 % tau := by
          rw [Nat.pow_succ]
          conv_rhs => rw [← Nat.mod_mul_left_mod v2 (tau ^ k) tau]
        have d4 : v2 % tau ^ (k + 1) / tau = v2 / tau % tau ^ k := by
          rw [Nat.pow_succ, Nat.mul_comm, Nat.mod_mul_right_div_self]
        have f1 := Nat.div_add_mod (v1 % tau ^ (k + 1)) tau
        have f2 := Nat.div_add_mod (v2 % tau ^ (k + 1)) tau
        rw [d1, d2] at f1
        rw [d3, d4] at f2
        rw [← f1, ← f2, h3, h1]
      · intro h
        rw [transformGo_mod tau (k + 1) v1, transformGo_mod tau (k + 1) v2, h]

end MoreLemmas

section ClaimsTwo

/-- C2 counterexample: `Lamport::verify` panics (`assert_eq!` on the key
shape) for the in-bound message `[]` and the public key `Key(Box::new([]))`,
a value of the scheme's public-key type, instead of returning a boolean. -/
theorem claim_C2_counterexample :
    lamportVerify sha256 1 [] [] [] = none ∧
      ([] : List Byte).length ≤ 1 := by
  exact ⟨rfl, by norm_num⟩

/-- C2 (amended): verification is total and boolean-valued on well-shaped
inputs: Lamport whenever the public key passes the shape assertions
(`|pk|/8 = msg_len`, `|msg| ≤ msg_len`; signatures of any length are then
handled, mismatched lengths giving `false`), and Winternitz whenever the
public key and the signature have at least as many entries as the digit
sequence of the message.  Outside these shapes `verify` can panic, as the
counterexample shows. -/
theorem claim_C2_verify_total :
    (∀ (hash : List Byte → U256) (msgLen : Nat) (m : List Byte)
      (pub : List (U256 × U256)) (sig : List U256),
      pub.length / 8 = msgLen → m.length ≤ msgLen →
      ∃ b, lamportVerify hash msgLen m pub sig = some b) ∧
    (∀ (hash : List Byte → U256) (p : WParams) (m : List Byte)
      (pub sig : List U256),
      (wHashCounts hash p m).length ≤ pub.length →
      (wHashCounts hash p m).length ≤ sig.length →
      ∃ b, winternitzVerify hash p m pub sig = some b) := by
  constructor
  · intro hash msgLen m pub sig h1 h2
    exact lamportVerify_total hash msgLen m pub sig h1 h2
  · intro hash p m pub sig h1 h2
    rw [winternitzVerify]
    exact wVerifyGo_total hash p pub sig _ 0 (by omega) (by omega)

theorem claim_C2_verify_total_witness :
    (lamportVerify cHash 1 [5] (lamportGenKeys cHash cRng 1 zero32).2
        (List.replicate 9 zero32)).isSome = true ∧
    (winternitzVerify cHash (winternitzNew 16) [1]
        (List.replicate 70 zero32) (List.replicate 70 zero32)).isSome = true := by
  constructor
  · obtain ⟨b, hb⟩ := claim_C2_verify_total.1 cHash 1 [5]
      (lamportGenKeys cHash cRng 1 zero32).2 (List.replicate 9 zero32)
      (by decide) (by decide)
    rw [hb]
    rfl
  · obtain ⟨b, hb⟩ := claim_C2_verify_total.2 cHash (winternitzNew 16) [1]
      (List.replicate 70 zero32) (List.replicate 70 zero32)
      (by decide) (by decide)
    rw [hb]
    rfl

/-- The derivation formula the specification prescribes for Goldreich node
keypairs: `O.gen_keys(hash_pair(σ, bytes_of(node_idx)))`. -/
def specGoldreichKeypair (O : Scheme) (hash : List Byte → U256) (sigma : U256)
    (j : Nat) : O.Pr × O.Pu :=
  O.genKeys (hashPair hash sigma.val (leBytes8 j))

set_option maxRecDepth 1000000 in
/-- C6 counterexample: with the Winternitz OTS (whose private key is the
seed itself), the keypair the code derives at node 0 — from a PRNG stream
block — differs from the specification formula
`O.gen_keys(hash_pair(σ, bytes_of(0)))`: the all-zero stream block is not
the SHA-256 digest of `σ ‖ bytes_of(0)`. -/
theorem claim_C6_counterexample :
    goldreichTree (winternitzScheme sha256 cRng (winternitzNew 16)) cRng zero32 0
      ≠ specGoldreichKeypair (winternitzScheme sha256 cRng (winternitzNew 16))
          sha256 zero32 0 := by
  intro h
  have h1 : cRng zero32 0 = hashPair sha256 zero32.val (leBytes8 0) :=
    congrArg Prod.fst h
  exact absurd h1 (by decide)

/-- C6 (amended): every Goldreich node keypair is derived as
`O.gen_keys(block_j)` where `block_j` is the j-th 32-byte block of the
HC-128 stream seeded with `σ` (nodes in heap order), and `gen_keys` builds
its public root component from the same node-0 keypair — not from
`hash_pair(σ, bytes_of(j))`. -/
theorem claim_C6_derivation :
    ∀ (O : Scheme) (hash : List Byte → U256) (rngHc : U256 → Nat → U256)
      (sigma : U256),
      (∀ j, goldreichTree O rngHc sigma j = O.genKeys (rngHc sigma j)) ∧
      (∀ gpub, goldreichGenKeys O hash rngHc sigma = some gpub →
        gpub.2.1 = (goldreichTree O rngHc sigma 0).2) := by
  intro O hash rngHc sigma
  refine ⟨fun j => rfl, ?_⟩
  intro gpub hg
  simp only [goldreichGenKeys, Option.bind_eq_bind] at hg
  cases hroot : O.sign (hashPair hash
      (O.pubBytes (goldreichTree O rngHc sigma 1).2)
      (O.pubBytes (goldreichTree O rngHc sigma 2).2)).val
      (goldreichTree O rngHc sigma 0).1 with
  | none => rw [hroot] at hg; cases hg
  | some rootSg =>
      rw [hroot] at hg
      simp only [Option.some_bind] at hg
      rw [(Option.some_inj.1 hg).symm]

theorem claim_C6_derivation_witness :
    goldreichTree trivScheme cRng zero32 5 = trivScheme.genKeys (cRng zero32 5) ∧
    ((zero32, ((), ())) : U256 × (Unit × Unit)).2.1
      = (goldreichTree trivScheme cRng zero32 0).2 := by
  refine ⟨(claim_C6_derivation trivScheme cHash cRng zero32).1 5, ?_⟩
  exact (claim_C6_derivation trivScheme cHash cRng zero32).2 (zero32, ((), ()))
    rfl

/-- C9: the HORST message transform yields exactly `k` indices, each in
`[0, τ)`; consequently every secret a signature reveals is a `private[i]`
with `i < τ` — at most `τ` of the `2^τ` leaf secrets. -/
theorem claim_C9_horst_indices :
    ∀ (hash : List Byte → U256) (tau k : Nat) (m : List Byte)
      (priv : List U256),
      1 ≤ tau →
      ((horstTransform (horstNew tau k) m).length = k ∧
        (∀ i ∈ horstTransform (horstNew tau k) m, i < tau)) ∧
      (∀ sig, horstSign hash (horstNew tau k) m priv = some sig →
        ∀ e ∈ sig.1, ∃ i, i < tau ∧ priv.get? i = some e.1) := by
  intro hash tau k m priv htau
  refine ⟨⟨transformGo_length tau k _, fun i hi => transformGo_lt tau htau k _ i hi⟩, ?_⟩
  intro sig hs e he
  rw [horstSign] at hs
  by_cases hm : m.length * 8 ≤ (horstNew tau k).k * (horstNew tau k).height
  · rw [if_pos hm] at hs
    simp only [Option.bind_eq_bind] at hs
    cases hmo : mapO (fun mj => (priv.get? mj).map
        (fun sk => (sk, horstPath hash priv 0
          ((horstNew tau k).height - (horstNew tau k).x) mj)))
        (horstTransform (horstNew tau k) m) with
    | none => rw [hmo] at hs; cases hs
    | some entries =>
        rw [hmo] at hs
        simp only [Option.some_bind] at hs
        have hsig := (Option.some_inj.1 hs).symm
        have he1 : e ∈ entries := by
          rw [hsig] at he
          exact he
        obtain ⟨mj, hmj, hfmj⟩ := mapO_mem _ _ _ hmo e he1
        refine ⟨mj, transformGo_lt tau htau k _ mj hmj, ?_⟩
        cases hget : priv.get? mj with
        | none => rw [hget] at hfmj; cases hfmj
        | some sk =>
            rw [hget] at hfmj
            simp only [Option.map_some'] at hfmj
            have := (Option.some_inj.1 hfmj).symm
            rw [this]
  · rw [if_neg hm] at hs
    cases hs

theorem claim_C9_horst_indices_witness :
    (horstTransform (horstNew 4 2) [3]).length = 2 ∧ (3 : Nat) < 4 := by
  refine ⟨(claim_C9_horst_indices cHash 4 2 [3] [] (by norm_num)).1.1, ?_⟩
  exact (claim_C9_horst_indices cHash 4 2 [3] [] (by norm_num)).1.2 3 (by decide)

/-- C10: `gen_keys(Some(σ))` and `sign(·, σ)` derive the node keypairs from
the same seeded stream — `gen_keys` uses exactly the draws for nodes 0, 1, 2
that `sign` places at `tree[0..2]` — and consequently a signature produced
by `sign` passes the final verification step against the public key produced
by `gen_keys`. -/
theorem claim_C10_gen_sign_consistency :
    ∀ (O : Scheme) (hash : List Byte → U256) (rngHc : U256 → Nat → U256)
      (sigma : U256),
      (goldreichTree O rngHc sigma 0 = O.genKeys (rngHc sigma 0) ∧
        goldreichTree O rngHc sigma 1 = O.genKeys (rngHc sigma 1) ∧
        goldreichTree O rngHc sigma 2 = O.genKeys (rngHc sigma 2)) ∧
      (∀ (L : Nat) (msg : List Byte) (gpub : U256 × (O.Pu × O.Sg))
        (gsig : GSig O), SchemeRT O → 1 ≤ L →
        goldreichGenKeys O hash rngHc sigma = some gpub →
        goldreichSign O hash rngHc sigma L msg = some gsig →
        goldreichVerify O hash msg gpub.2 gsig = some true) := by
  intro O hash rngHc sigma
  refine ⟨⟨rfl, rfl, rfl⟩, ?_⟩
  intro L msg gpub gsig hO hL hg hs
  exact goldreich_roundtrip O hash rngHc sigma L msg hO hL gpub gsig hg hs

end ClaimsTwo

section ClaimsThree

/-- C7: for every produced signature, the Merkle authentication path has
exactly `h` entries, the Goldreich path has exactly `h` sibling-pair/
signature triples (for a leaf drawn from `[2^h − 1, 2·2^h − 1)`), and the
SPHINCS path has exactly `d` subtree entries. -/
theorem claim_C7_path_lengths :
    (∀ (O : Scheme) (hash : List Byte → U256) (h : Nat) (m : List Byte)
      (priv : U256 × Nat) (sig : MSig O),
      merkleSign O hash h m priv = some sig → sig.path.length = h) ∧
    (∀ (O : Scheme) (hash : List Byte → U256) (rngHc : U256 → Nat → U256)
      (sigma : U256) (h L : Nat) (m : List Byte) (sig : GSig O),
      1 ≤ h → 2 ^ h - 1 ≤ L → L < 2 ^ (h + 1) - 1 →
      goldreichSign O hash rngHc sigma L m = some sig →
      sig.path.length = h) ∧
    (∀ (O F : Scheme) (hash : List Byte → U256)
      (hash512 : List Byte → List Byte) (rngStd : U256 → Nat → U256)
      (d h : Nat) (m : List Byte) (sk : U256 × U256) (ftsIdx : Nat)
      (rnd : U256) (sig : SphSig O F),
      sphincsSign O F hash hash512 rngStd (sphincsNew d h) m sk ftsIdx rnd
        = some sig →
      sig.path.length = d) := by
  refine ⟨?_, ?_, ?_⟩
  · intro O hash h m priv sig hs
    rw [merkleSign] at hs
    simp only [Option.bind_eq_bind] at hs
    cases hls : O.sign m (merkleOtsPair O hash priv.1 priv.2).1 with
    | none => rw [hls] at hs; cases hs
    | some ls =>
        rw [hls] at hs
        simp only [Option.some_bind] at hs
        rw [(Option.some_inj.1 hs).symm]
        simp
  · intro O hash rngHc sigma h L m sig h1 hlo hhi hs
    simp only [goldreichSign, Option.bind_eq_bind] at hs
    cases hls : O.sign m (goldreichTree O rngHc sigma L).1 with
    | none => rw [hls] at hs; cases hs
    | some leafSig =>
        rw [hls] at hs
        simp only [Option.some_bind] at hs
        cases hrest : goldreichLoop O hash rngHc sigma ((L - 1) / 2) ((L - 1) / 2)
            (hashPair hash
              (O.pubBytes (goldreichTree O rngHc sigma (2 * ((L - 1) / 2) + 1)).2)
              (O.pubBytes (goldreichTree O rngHc sigma (2 * ((L - 1) / 2) + 2)).2)) with
        | none => rw [hrest] at hs; cases hs
        | some rest =>
            rw [hrest] at hs
            simp only [Option.some_bind] at hs
            rw [(Option.some_inj.1 hs).symm]
            have hd : h - 1 + 1 = h := by omega
            have hpow1 : 2 ^ h = 2 * 2 ^ (h - 1) := by
              conv_lhs => rw [← hd]
              rw [Nat.pow_succ]
              ring
            have hpow2 : 2 ^ (h + 1) = 4 * 2 ^ (h - 1) := by
              conv_lhs => rw [show h + 1 = h - 1 + 2 by omega]
              rw [Nat.pow_succ, Nat.pow_succ]
              ring
            have hpos : 1 ≤ 2 ^ (h - 1) := Nat.one_le_two_pow
            have hrl : rest.length = h - 1 := by
              apply gLoop_length O hash rngHc sigma (h - 1) ((L - 1) / 2)
                ((L - 1) / 2) _ rest
              · omega
              · rw [hd]
                omega
              · exact hrest
            simp only [GSig.path, List.length_cons, hrl]
            omega
  · intro O F hash hash512 rngStd d h m sk ftsIdx rnd sig hs
    simp only [sphincsSign, Option.bind_eq_bind] at hs
    cases hfs : F.sign (hash512 (rnd.val ++ m)) (sphincsFtsKeys F hash sk.1 ftsIdx).1 with
    | none => rw [hfs] at hs; cases hs
    | some ftsSig =>
        rw [hfs] at hs
        simp only [Option.some_bind] at hs
        cases hpath : sphincsSignLoop O hash rngStd (sphincsNew d h) sk.1
            (sphincsNew d h).depth 0 ftsIdx
            (F.pubBytes (sphincsFtsKeys F hash sk.1 ftsIdx).2) with
        | none => rw [hpath] at hs; cases hs
        | some path =>
            rw [hpath] at hs
            simp only [Option.some_bind] at hs
            rw [(Option.some_inj.1 hs).symm]
            exact sphincsLoop_length O hash rngStd (sphincsNew d h) sk.1
              (sphincsNew d h).depth 0 ftsIdx _ path hpath

theorem claim_C7_path_lengths_witness :
    ((merkleSign trivScheme cHash 2 [1] (zero32, 0)).map
      (fun sg => sg.path.length)) = some 2 ∧
    ((goldreichSign trivScheme cHash cRng zero32 1 [7]).map
      (fun sg => sg.path.length)) = some 1 ∧
    ((sphincsSign trivScheme trivScheme cHash cHash512 cRng (sphincsNew 1 1)
        [2] (zero32, zero32) 1 zero32).map
      (fun sg => sg.path.length)) = some 1 := by
  refine ⟨?_, ?_, ?_⟩
  · have hiss : (merkleSign trivScheme cHash 2 [1] (zero32, 0)).isSome = true := rfl
    obtain ⟨sg, hsg⟩ := Option.isSome_iff_exists.1 hiss
    rw [hsg, Option.map_some',
      claim_C7_path_lengths.1 trivScheme cHash 2 [1] (zero32, 0) sg hsg]
  · have hiss : (goldreichSign trivScheme cHash cRng zero32 1 [7]).isSome = true := rfl
    obtain ⟨sg, hsg⟩ := Option.isSome_iff_exists.1 hiss
    rw [hsg, Option.map_some',
      claim_C7_path_lengths.2.1 trivScheme cHash cRng zero32 1 1 [7] sg
        (by norm_num) (by norm_num) (by norm_num) hsg]
  · have hiss : (sphincsSign trivScheme trivScheme cHash cHash512 cRng
        (sphincsNew 1 1) [2] (zero32, zero32) 1 zero32).isSome = true := rfl
    obtain ⟨sg, hsg⟩ := Option.isSome_iff_exists.1 hiss
    rw [hsg, Option.map_some',
      claim_C7_path_lengths.2.2 trivScheme trivScheme cHash cHash512 cRng 1 1
        [2] (zero32, zero32) 1 zero32 sg hsg]

end ClaimsThree

section ClaimsFour

set_option maxRecDepth 1000000 in
/-- C3 counterexample: with HORST(τ = 8, k = 2) and SHA-256, the distinct
in-bound messages `[0]` and `[64]` (`64 = τ²`, so both reduce to the digit
sequence `[0, 0]` under `transform_msg`) cross-verify: a signature for
`[64]` is accepted for `[0]`. -/
theorem claim_C3_counterexample :
    ([0] : List Byte) ≠ [64] ∧
    ([0] : List Byte).length * 8 ≤ 2 * 8 ∧
    ([64] : List Byte).length * 8 ≤ 2 * 8 ∧
    (horstSign sha256 (horstNew 8 2) [64]
        (horstGenKeys sha256 cRng (horstNew 8 2) zero32).1).bind
      (fun sg => some (horstVerify sha256 (horstNew 8 2) [0]
        (horstGenKeys sha256 cRng (horstNew 8 2) zero32).2 sg)) = some true := by
  refine ⟨by decide, by norm_num, by norm_num, ?_⟩
  have hiss : (horstSign sha256 (horstNew 8 2) [64]
      (horstGenKeys sha256 cRng (horstNew 8 2) zero32).1).isSome = true := rfl
  obtain ⟨sg, hsg⟩ := Option.isSome_iff_exists.1 hiss
  rw [hsg]
  simp only [Option.some_bind, Option.some_inj]
  have htr : horstTransform (horstNew 8 2) [0] = horstTransform (horstNew 8 2) [64] := by
    decide
  rw [horstVerify_congr sha256 (horstNew 8 2) [0] [64] _ sg htr]
  have hpriv : (horstGenKeys sha256 cRng (horstNew 8 2) zero32).1.length = 2 ^ 8 := by
    simp [horstGenKeys, horstNew]
  have hpk : (horstGenKeys sha256 cRng (horstNew 8 2) zero32).2
      = horstNode sha256 (horstGenKeys sha256 cRng (horstNew 8 2) zero32).1 8 0 := rfl
  rw [hpk]
  exact horst_verify_of_sign sha256 8 2 _ [64] (by decide) hpriv sg hsg

/-- C3 (amended): distinct messages are rejected only when the scheme's
message transform separates them.  The HORST transform depends on the
message exactly through its value modulo `τ^k`; two in-bound messages that
are congruent modulo `τ^k` have identical transforms, and then any
signature produced for one verifies for the other. -/
theorem claim_C3_soundness_boundary :
    (∀ (tau k : Nat) (m1 m2 : List Byte), 1 ≤ tau →
      (horstTransform (horstNew tau k) m1 = horstTransform (horstNew tau k) m2
        ↔ leNat m1 % tau ^ k = leNat m2 % tau ^ k)) ∧
    (∀ (hash : List Byte → U256) (tau k : Nat) (priv : List U256)
      (m1 m2 : List Byte) (sig : List (U256 × List U256) × List U256),
      flooredLog k + 1 ≤ tau → priv.length = 2 ^ tau →
      leNat m1 % tau ^ k = leNat m2 % tau ^ k →
      horstSign hash (horstNew tau k) m2 priv = some sig →
      horstVerify hash (horstNew tau k) m1 (horstNode hash priv tau 0) sig
        = true) := by
  constructor
  · intro tau k m1 m2 htau
    exact transformGo_eq_iff tau htau k (leNat m1) (leNat m2)
  · intro hash tau k priv m1 m2 sig hx hpriv hcong hs
    have htau : 1 ≤ tau := by omega
    have htr : horstTransform (horstNew tau k) m1
        = horstTransform (horstNew tau k) m2 :=
      (transformGo_eq_iff tau htau k (leNat m1) (leNat m2)).2 hcong
    rw [horstVerify_congr hash (horstNew tau k) m1 m2 _ sig htr]
    exact horst_verify_of_sign hash tau k priv m2 hx hpriv sig hs

theorem claim_C3_soundness_boundary_witness :
    (horstTransform (horstNew 8 2) [1] = horstTransform (horstNew 8 2) [65]) ∧
    (horstSign cHash (horstNew 8 2) [65]
        (horstGenKeys cHash cRng (horstNew 8 2) zero32).1).bind
      (fun sg => some (horstVerify cHash (horstNew 8 2) [1]
        (horstNode cHash (horstGenKeys cHash cRng (horstNew 8 2) zero32).1 8 0)
        sg)) = some true := by
  constructor
  · exact (claim_C3_soundness_boundary.1 8 2 [1] [65] (by norm_num)).2 (by decide)
  · have hiss : (horstSign cHash (horstNew 8 2) [65]
        (horstGenKeys cHash cRng (horstNew 8 2) zero32).1).isSome = true := rfl
    obtain ⟨sg, hsg⟩ := Option.isSome_iff_exists.1 hiss
    rw [hsg]
    simp only [Option.some_bind, Option.some_inj]
    exact claim_C3_soundness_boundary.2 cHash 8 2
      (horstGenKeys cHash cRng (horstNew 8 2) zero32).1 [1] [65] sg
      (by decide) (by simp [horstGenKeys, horstNew]) (by decide) hsg

end ClaimsFour

section ClaimsOne

end ClaimsOne

theorem claim_C10_gen_sign_consistency_witness :
    goldreichTree trivScheme cRng zero32 0 = trivScheme.genKeys (cRng zero32 0) ∧
    ((goldreichGenKeys trivScheme cHash cRng zero32).bind
      (fun gp => (goldreichSign trivScheme cHash cRng zero32 1 [4]).bind
        (fun gs => goldreichVerify trivScheme cHash [4] gp.2 gs)) = some true) := by
  constructor
  · exact (claim_C10_gen_sign_consistency trivScheme cHash cRng zero32).1.1
  · have hgss : (goldreichGenKeys trivScheme cHash cRng zero32).isSome = true := rfl
    obtain ⟨gp, hgp⟩ := Option.isSome_iff_exists.1 hgss
    have hiss : (goldreichSign trivScheme cHash cRng zero32 1 [4]).isSome = true := rfl
    obtain ⟨gs, hgs⟩ := Option.isSome_iff_exists.1 hiss
    rw [hgp, hgs, Option.some_bind, Option.some_bind]
    exact (claim_C10_gen_sign_consistency trivScheme cHash cRng zero32).2 1 [4]
      gp gs trivScheme_RT (by norm_num) hgp hgs
